import Mathlib

/-!
Formal model of the weighted-sample statistics and the redistribution
algorithms of the PolicyEngine ai-inequality analysis package
(`analysis/metrics.py`, `analysis/capital_income_doubling.py`,
`analysis/compute_mtrs.py`, `analysis/labor_capital_shift.py`,
`analysis/compute_shift_sweep.py`).

Machine floats are modelled by exact rationals and numpy arrays by lists.
A Python function that can raise on the modelled code path is embedded as
an `Option`-valued function, with `none` marking the raised exception.
-/

namespace PEAI

/-- One observation: a `(value, weight)` pair. -/
abbrev Obs := ℚ × ℚ

/-- Insert an observation into a list that is sorted ascending by value.
Together with `sortByValue` this models the reordering effected by
`np.argsort(values)`; every statistic below is invariant under the order
chosen among equal values, so a stable insertion sort is a faithful model. -/
def insertByValue (p : Obs) : List Obs → List Obs
  | [] => [p]
  | q :: rest => if p.1 ≤ q.1 then p :: q :: rest else q :: insertByValue p rest

/-- Sort observations ascending by value (model of `np.argsort` reordering). -/
def sortByValue : List Obs → List Obs
  | [] => []
  | p :: rest => insertByValue p (sortByValue rest)

/-- Model of the `mask = w > 0` filtering step of `weighted_gini`. -/
def filterPosW (l : List Obs) : List Obs := l.filter (fun p => 0 < p.2)

/-- Model of `total_w`, the grand total of the weights. -/
def wTotal (l : List Obs) : ℚ := (l.map (fun p => p.2)).sum

/-- Model of the total weighted value `(values * w).sum()`. -/
def wvTotal (l : List Obs) : ℚ := (l.map (fun p => p.1 * p.2)).sum

/-- Model of `np.sum(cumwv * w)` where `cumwv = np.cumsum(values * w)`;
the accumulator is the running cumulative weighted value. -/
def sumCumwvW : ℚ → List Obs → ℚ
  | _, [] => 0
  | b, p :: rest => (b + p.1 * p.2) * p.2 + sumCumwvW (b + p.1 * p.2) rest

/-- Model of `weighted_gini` from `analysis/capital_income_doubling.py`
(lines 76-98): filter `w > 0`, sort ascending by value, return `0.0` when
the total weighted value is zero, and otherwise return
`1 - 2*np.sum(cumwv*w)/(total_weight*total_wv) + 1/total_weight`.
When the filtered sample is empty the source indexes `cumw[-1]` on an
empty array and raises `IndexError`; this is modelled by `none`. -/
def weighted_gini (l : List Obs) : Option ℚ :=
  let f := sortByValue (filterPosW l)
  if f = [] then none
  else if wvTotal f = 0 then some 0
  else some (1 - 2 * sumCumwvW 0 f / (wTotal f * wvTotal f) + 1 / wTotal f)

/-- Modelled from the spec: the running sum `Σ weight_i * value_i * F_i`
with the midpoint rank `F_i = (cumw_i - weight_i/2) / total_w`; the first
accumulator is the running cumulative weight and the second argument is
the fixed grand total of the weights. -/
def sumWvF : ℚ → ℚ → List Obs → ℚ
  | _, _, [] => 0
  | a, W, p :: rest => p.2 * p.1 * ((a + p.2 - p.2 / 2) / W) + sumWvF (a + p.2) W rest

/-- Modelled from the spec: the reference `weightedGini` of spec section 4.1,
in the Lerman-Yitzhaki midpoint-rank form
`2 * Σ(weight_i*value_i*F_i) / (total_w * mu) - 1`.  The repository tests
obtain this function as `analysis.metrics.weighted_gini`, but that
definition is not under `src/`; only the draft in
`capital_income_doubling.py` is, so the reference formula is modelled
faithfully from the spec text for comparison with the draft. -/
def weighted_gini_spec (l : List Obs) : ℚ :=
  let f := sortByValue (filterPosW l)
  let W := wTotal f
  let mu := wvTotal f / W
  2 * sumWvF 0 W f / (W * mu) - 1

/-- The sum `Σ weight_i^2 * value_i` over a sample; the exact discrepancy
between the two Gini formulations is expressed with it. -/
def sqWvTotal (l : List Obs) : ℚ := (l.map (fun p => p.2 ^ 2 * p.1)).sum

/-- The sum `Σ weight_i * value_i * cumw_i` with running cumulative weight;
auxiliary quantity for relating the two Gini formulations. -/
def sumWVCumW : ℚ → List Obs → ℚ
  | _, [] => 0
  | a, p :: rest => p.2 * p.1 * (a + p.2) + sumWVCumW (a + p.2) rest

/-- Model of rescaling every weight by a constant `k` (the `w * k` of the
weight-scale-invariance property in the spec and tests). -/
def scaleW (k : ℚ) (l : List Obs) : List Obs := l.map (fun p => (p.1, k * p.2))

/-- Weighted sum `Σ w_i * v_i` of a value array against a weight array. -/
def wsum (ws vs : List ℚ) : ℚ := (List.zipWith (fun w v => w * v) ws vs).sum

/-- Model of a positive-only weighted total
`(np.where(raw >= 0, raw, 0) * w).sum()` (`compute_mtrs.py` line 113). -/
def posTotal (ws vs : List ℚ) : ℚ := (List.zipWith (fun w v => w * max v 0) ws vs).sum

/-- Model of `np.where(vals >= 0, vals * scale, vals)`. -/
def scalePos (c : ℚ) (vs : List ℚ) : List ℚ := vs.map (fun v => if 0 ≤ v then v * c else v)

/-- Model of the redistribution core of `_apply_shift` in
`analysis/compute_mtrs.py` (lines 108-127), which is also the algorithm of
`TestMarketIncomeConservation._redistribute` in the unit tests: positive-only
weighted totals give each target variable its share of `totalFreed`, and the
induced scale factor is applied to the non-negative entries only.  All target
variables share the single weight array `ws`. -/
def apply_shift (ws : List ℚ) (totalFreed : ℚ) (vars : List (List ℚ)) : List (List ℚ) :=
  let totalPositive := (vars.map (posTotal ws)).sum
  vars.map (fun vs =>
    let pt := posTotal ws vs
    if 0 < pt ∧ 0 < totalPositive then
      scalePos (1 + pt / totalPositive * totalFreed / pt) vs
    else vs)

/-- Model of the redistribution core of `_apply_shift` in
`analysis/labor_capital_shift.py` (lines 78-99): shares come from the full
(sign-inclusive) weighted totals, and each variable with positive total is
scaled by `original * scale` on every entry, negative entries included. -/
def lcs_apply_shift (ws : List ℚ) (totalFreed : ℚ) (vars : List (List ℚ)) : List (List ℚ) :=
  let totalExisting := (vars.map (wsum ws)).sum
  vars.map (fun vs =>
    let t := wsum ws vs
    let share := if 0 < totalExisting then t / totalExisting else 1 / (vars.length : ℚ)
    if 0 < t then vs.map (fun v => v * (1 + share * totalFreed / t)) else vs)

/-- Raw revenue/cost totals per scenario, as returned by
`_revenue_components` in `analysis/compute_shift_sweep.py`. -/
structure RevenueComponents where
  income_tax : ℚ
  payroll : ℚ
  eitc : ℚ
  ctc : ℚ
  snap : ℚ

/-- Signed per-component changes and their total, as returned by
`net_fiscal_impact` in `analysis/compute_shift_sweep.py`. -/
structure FiscalImpact where
  income_tax_change : ℚ
  payroll_change : ℚ
  eitc_change : ℚ
  ctc_change : ℚ
  snap_change : ℚ
  total_change : ℚ

/-- Model of `net_fiscal_impact` (`analysis/compute_shift_sweep.py`
lines 39-54): tax-like components enter as `scenario - baseline`,
benefit-like components as `-(scenario - baseline)`, and `total_change`
is the sum of the five signed changes. -/
def net_fiscal_impact (c b : RevenueComponents) : FiscalImpact :=
  let dit := c.income_tax - b.income_tax
  let dp := c.payroll - b.payroll
  let de := -(c.eitc - b.eitc)
  let dc := -(c.ctc - b.ctc)
  let ds := -(c.snap - b.snap)
  ⟨dit, dp, de, dc, ds, dit + dp + de + dc + ds⟩

/-- Model of `DELTA_PCT = 0.01` in `analysis/compute_mtrs.py`. -/
def DELTA_PCT : ℚ := 1 / 100

/-- Model of `income_totals[var] = float((raw * w).sum())`. -/
def weightedTotal (vals ws : List ℚ) : ℚ := (List.zipWith (fun v w => v * w) vals ws).sum

/-- Model of the proportional bump `raw * (1 + DELTA_PCT)` applied to every
unit (`compute_mtrs.py` line 59). -/
def proportionalBump (delta : ℚ) (vals : List ℚ) : List ℚ := vals.map (fun v => v * (1 + delta))

/-- Model of the dollar-weighted MTR computation in
`_compute_mtr_for_scenario` (`compute_mtrs.py` lines 72-78):
`delta_gross_dollar = income_total * DELTA_PCT` and
`mtr = 1 - delta_net / delta_gross_dollar` when `abs(delta_gross) > 0`,
`nan` (modelled by `none`) otherwise. -/
def mtr_dollar (incomeTotal deltaNet : ℚ) : Option ℚ :=
  if incomeTotal * DELTA_PCT = 0 then none
  else some (1 - deltaNet / (incomeTotal * DELTA_PCT))

/-- Model of one bucket sum of `compute_decile_shares`
(`analysis/metrics.py` lines 29-35): running cumulative weight `a`, bucket
bounds `lo`, `hi`, and the flag `fb` marking the first bucket whose mask is
`cumw <= upper` instead of `(cumw > lower) & (cumw <= upper)`. -/
def maskSum : ℚ → ℚ → ℚ → Bool → List Obs → ℚ
  | _, _, _, _, [] => 0
  | a, lo, hi, fb, p :: rest =>
    (if (if fb then a + p.2 ≤ hi else lo < a + p.2 ∧ a + p.2 ≤ hi) then p.1 * p.2 else 0)
      + maskSum (a + p.2) lo hi fb rest

/-- The unnormalized bucket totals of `compute_decile_shares` computed on
an already sorted sample. -/
def rawShares (sorted : List Obs) (n : ℕ) : List ℚ :=
  (List.range n).map (fun i : ℕ =>
    maskSum 0 ((i : ℚ) / (n : ℚ) * wTotal sorted)
      (((i : ℚ) + 1) / (n : ℚ) * wTotal sorted) (i == 0) sorted)

/-- Model of `compute_decile_shares` from `analysis/metrics.py` (lines 8-38):
sort ascending by value, collect the weighted value of each cumulative-weight
bucket, and normalize by the sum over buckets when that sum is positive.
On empty input the source indexes `cumw[-1]` on an empty array and raises
`IndexError`, modelled by `none`. -/
def compute_decile_shares (vals ws : List ℚ) (n : ℕ) : Option (List ℚ) :=
  let f := sortByValue (vals.zip ws)
  if f = [] then none
  else
    let shares := rawShares f n
    let total := shares.sum
    some (if 0 < total then shares.map (fun s => s / total) else shares)

/-- Model of `np.linspace(0, 1, n)`. -/
def linspace01 (n : ℕ) : List ℚ :=
  (List.range n).map (fun i : ℕ => if n ≤ 1 then 0 else (i : ℚ) / ((n : ℚ) - 1))

/-- The list of cumulative pairs `(cumw_i, cumwv_i)` of a sample, with
running accumulators; models `np.cumsum(weights)` paired with
`np.cumsum(values * weights)`. -/
def cumPoints : ℚ → ℚ → List Obs → List Obs
  | _, _, [] => []
  | a, b, p :: rest => (a + p.2, b + p.1 * p.2) :: cumPoints (a + p.2) (b + p.1 * p.2) rest

/-- Walk of the interpolation nodes: `q` is the last node whose abscissa is
known to be at most `x` so far; advance while the next abscissa is still at
most `x`, else interpolate linearly between `q` and the next node. -/
def interpGo : Obs → List Obs → ℚ → ℚ
  | q, [], _ => q.2
  | q, r :: rest, x =>
    if r.1 ≤ x then interpGo r rest x
    else q.2 + (r.2 - q.2) * (x - q.1) / (r.1 - q.1)

/-- Model of `np.interp(x, xp, fp)` for nodes with non-decreasing abscissas
(the only way the source calls it): clamp to the first ordinate left of the
nodes, clamp to the last ordinate right of them, and interpolate linearly
in between, consecutive duplicate nodes being skipped. -/
def interp (pts : List Obs) (x : ℚ) : ℚ :=
  match pts with
  | [] => 0
  | q :: rest => if x < q.1 then q.2 else interpGo q rest x

/-- Model of `lorenz_curve` from `analysis/metrics.py` (lines 41-70):
sort ascending by value, form cumulative population and income fractions
prefixed with `(0, 0)` (falling back to the population fractions when the
total weighted value is not positive), and resample by linear interpolation
onto `n_points` evenly spaced abscissas in `[0, 1]`.  On empty input the
source indexes `cumw[-1]` on an empty array and raises, modelled by `none`.
The cumulative fraction at one node is given by `lorenzMap`. -/
def lorenzMap (W T : ℚ) (c : Obs) : Obs :=
  (c.1 / W, if 0 < T then c.2 / T else c.1 / W)

/-- The interpolation nodes of the Lorenz curve: the pair
`(0, 0)` followed by the cumulative population and income fractions
(`income_fracs` falling back to `pop_fracs` when the total weighted value
is not positive, as in the source). -/
def lorenzPts (f : List Obs) : List Obs :=
  (0, 0) :: (cumPoints 0 0 f).map (lorenzMap (wTotal f) (wvTotal f))

def lorenz_curve (vals ws : List ℚ) (nPoints : ℕ) : Option (List ℚ × List ℚ) :=
  let f := sortByValue (vals.zip ws)
  if f = [] then none
  else
    let xs := linspace01 nPoints
    some (xs, xs.map (interp (lorenzPts f)))

/-- Modelled from the spec: the weighted value collected by one
cumulative-weight bucket of `quantileShares`, written the way the claim
describes it — observation `j` of the sorted sample belongs to the bucket
when its cumulative weight `a + wTotal (f.take (j+1))` lies in `(lo, hi]`,
except that the first bucket (`fb = true`) keeps every observation with
cumulative weight at most `hi`. -/
def specBucketSum (a lo hi : ℚ) (fb : Bool) (f : List Obs) : ℚ :=
  ((List.range f.length).map (fun j =>
    if (if fb then a + wTotal (f.take (j + 1)) ≤ hi
        else lo < a + wTotal (f.take (j + 1)) ∧ a + wTotal (f.take (j + 1)) ≤ hi)
    then (f.getD j (0, 0)).1 * (f.getD j (0, 0)).2 else 0)).sum

/-! Helper lemmas. -/

theorem list_sum_map_add {α : Type} (l : List α) (f g : α → ℚ) :
    (l.map (fun x => f x + g x)).sum = (l.map f).sum + (l.map g).sum := by
  induction l with
  | nil => simp
  | cons a l ih => simp only [List.map_cons, List.sum_cons, ih]; ring

theorem list_sum_map_mul_left {α : Type} (l : List α) (r : ℚ) (f : α → ℚ) :
    (l.map (fun x => r * f x)).sum = r * (l.map f).sum := by
  induction l with
  | nil => simp
  | cons a l ih => simp only [List.map_cons, List.sum_cons, ih]; ring

theorem wsum_scalePos (c : ℚ) : ∀ ws vs : List ℚ,
    wsum ws (scalePos c vs) = wsum ws vs + (c - 1) * posTotal ws vs := by
  intro ws
  induction ws with
  | nil => intro vs; simp [wsum, scalePos, posTotal]
  | cons w ws ih =>
    intro vs
    cases vs with
    | nil => simp [wsum, scalePos, posTotal]
    | cons v vs =>
      have h := ih vs
      simp only [wsum, scalePos, posTotal, List.map_cons, List.zipWith_cons_cons,
        List.sum_cons] at h ⊢
      rw [h]
      by_cases hv : 0 ≤ v
      · rw [if_pos hv, max_eq_left hv]; ring
      · rw [if_neg hv, max_eq_right (le_of_lt (not_le.mp hv))]; ring

theorem posTotal_nonneg : ∀ ws vs : List ℚ, (∀ w ∈ ws, 0 ≤ w) → 0 ≤ posTotal ws vs := by
  intro ws
  induction ws with
  | nil => intro vs _; simp [posTotal]
  | cons w ws ih =>
    intro vs hw
    cases vs with
    | nil => simp [posTotal]
    | cons v vs =>
      simp only [posTotal, List.zipWith_cons_cons, List.sum_cons]
      have h1 : 0 ≤ w * max v 0 :=
        mul_nonneg (hw w (List.mem_cons_self w ws)) (le_max_right v 0)
      have h2 : 0 ≤ posTotal ws vs := ih vs (fun x hx => hw x (List.mem_cons_of_mem w hx))
      simpa [posTotal] using add_nonneg h1 h2

theorem wTotal_cons (p : Obs) (l : List Obs) : wTotal (p :: l) = p.2 + wTotal l := by
  simp [wTotal]

theorem wvTotal_cons (p : Obs) (l : List Obs) : wvTotal (p :: l) = p.1 * p.2 + wvTotal l := by
  simp [wvTotal]

theorem sqWvTotal_cons (p : Obs) (l : List Obs) :
    sqWvTotal (p :: l) = p.2 ^ 2 * p.1 + sqWvTotal l := by
  simp [sqWvTotal]

theorem scaleW_cons (k : ℚ) (p : Obs) (l : List Obs) :
    scaleW k (p :: l) = (p.1, k * p.2) :: scaleW k l := rfl

theorem insertByValue_perm (p : Obs) : ∀ l : List Obs,
    List.Perm (insertByValue p l) (p :: l) := by
  intro l
  induction l with
  | nil => exact List.Perm.refl _
  | cons q rest ih =>
    simp only [insertByValue]
    by_cases h : p.1 ≤ q.1
    · rw [if_pos h]
    · rw [if_neg h]
      exact (ih.cons q).trans (List.Perm.swap p q rest)

theorem sortByValue_perm : ∀ l : List Obs, List.Perm (sortByValue l) l := by
  intro l
  induction l with
  | nil => exact List.Perm.refl _
  | cons p rest ih => exact (insertByValue_perm p (sortByValue rest)).trans (ih.cons p)

theorem mem_filterPosW {l : List Obs} {p : Obs} (h : p ∈ filterPosW l) : 0 < p.2 := by
  have := List.mem_filter.mp h
  simpa using this.2

theorem wTotal_nonneg {f : List Obs} (h : ∀ p ∈ f, 0 ≤ p.2) : 0 ≤ wTotal f := by
  induction f with
  | nil => simp [wTotal]
  | cons p rest ih =>
    rw [wTotal_cons]
    have h1 : 0 ≤ p.2 := h p (List.mem_cons_self p rest)
    have h2 : 0 ≤ wTotal rest := ih (fun q hq => h q (List.mem_cons_of_mem p hq))
    exact add_nonneg h1 h2

theorem wTotal_pos {f : List Obs} (h : ∀ p ∈ f, 0 < p.2) (hne : f ≠ []) : 0 < wTotal f := by
  cases f with
  | nil => exact absurd rfl hne
  | cons p rest =>
    rw [wTotal_cons]
    have h1 : 0 < p.2 := h p (List.mem_cons_self p rest)
    have h2 : 0 ≤ wTotal rest :=
      wTotal_nonneg (fun q hq => (h q (List.mem_cons_of_mem p hq)).le)
    exact add_pos_of_pos_of_nonneg h1 h2

/-- The grand weight total of the filtered, sorted sample is positive
whenever that sample is non-empty. -/
theorem gSample_wTotal_pos (l : List Obs) (hne : sortByValue (filterPosW l) ≠ []) :
    0 < wTotal (sortByValue (filterPosW l)) := by
  refine wTotal_pos ?_ hne
  intro p hp
  exact mem_filterPosW ((sortByValue_perm (filterPosW l)).subset hp)

theorem sumCumwvW_shift : ∀ (l : List Obs) (b : ℚ),
    sumCumwvW b l = sumCumwvW 0 l + b * wTotal l := by
  intro l
  induction l with
  | nil => intro b; simp [sumCumwvW, wTotal]
  | cons p rest ih =>
    intro b
    show (b + p.1 * p.2) * p.2 + sumCumwvW (b + p.1 * p.2) rest
      = (0 + p.1 * p.2) * p.2 + sumCumwvW (0 + p.1 * p.2) rest + b * wTotal (p :: rest)
    rw [ih (b + p.1 * p.2), ih (0 + p.1 * p.2), wTotal_cons]
    ring

theorem sumWVCumW_shift : ∀ (l : List Obs) (a : ℚ),
    sumWVCumW a l = sumWVCumW 0 l + a * wvTotal l := by
  intro l
  induction l with
  | nil => intro a; simp [sumWVCumW, wvTotal]
  | cons p rest ih =>
    intro a
    show p.2 * p.1 * (a + p.2) + sumWVCumW (a + p.2) rest
      = p.2 * p.1 * (0 + p.2) + sumWVCumW (0 + p.2) rest + a * wvTotal (p :: rest)
    rw [ih (a + p.2), ih (0 + p.2), wvTotal_cons]
    ring

/-- Abel-summation identity relating the two cumulative sums appearing in
the two Gini formulations. -/
theorem sumWVCumW_add_sumCumwvW : ∀ l : List Obs,
    sumWVCumW 0 l + sumCumwvW 0 l = wTotal l * wvTotal l + sqWvTotal l := by
  intro l
  induction l with
  | nil => simp [sumWVCumW, sumCumwvW, wTotal, wvTotal, sqWvTotal]
  | cons p rest ih =>
    show p.2 * p.1 * (0 + p.2) + sumWVCumW (0 + p.2) rest
        + ((0 + p.1 * p.2) * p.2 + sumCumwvW (0 + p.1 * p.2) rest)
      = wTotal (p :: rest) * wvTotal (p :: rest) + sqWvTotal (p :: rest)
    rw [sumWVCumW_shift rest (0 + p.2), sumCumwvW_shift rest (0 + p.1 * p.2),
      wTotal_cons, wvTotal_cons, sqWvTotal_cons]
    linear_combination ih

/-- The midpoint-rank sum of the spec equals the cumulative-weight sum minus
half the squared-weight correction, divided by the grand total. -/
theorem sumWvF_eq (W : ℚ) (hW : W ≠ 0) : ∀ (l : List Obs) (a : ℚ),
    sumWvF a W l = (sumWVCumW a l - sqWvTotal l / 2) / W := by
  intro l
  induction l with
  | nil => intro a; simp [sumWvF, sumWVCumW, sqWvTotal]
  | cons p rest ih =>
    intro a
    show p.2 * p.1 * ((a + p.2 - p.2 / 2) / W) + sumWvF (a + p.2) W rest
      = (p.2 * p.1 * (a + p.2) + sumWVCumW (a + p.2) rest - sqWvTotal (p :: rest) / 2) / W
    rw [ih (a + p.2), sqWvTotal_cons]
    field_simp
    ring

theorem filterPosW_cons (p : Obs) (l : List Obs) :
    filterPosW (p :: l) = if 0 < p.2 then p :: filterPosW l else filterPosW l := by
  simp only [filterPosW, List.filter_cons]
  by_cases h : 0 < p.2 <;> simp [h]

theorem filterPosW_scaleW (k : ℚ) (hk : 0 < k) :
    ∀ l : List Obs, filterPosW (scaleW k l) = scaleW k (filterPosW l) := by
  intro l
  induction l with
  | nil => rfl
  | cons p rest ih =>
    rw [scaleW_cons, filterPosW_cons, filterPosW_cons]
    by_cases h : 0 < p.2
    · rw [if_pos (show (0 : ℚ) < k * p.2 from mul_pos hk h), if_pos h, scaleW_cons, ih]
    · have h2 : ¬ (0 : ℚ) < k * p.2 := by
        intro hc
        rcases mul_pos_iff.mp hc with h1 | h1
        · exact h h1.2
        · exact absurd h1.1 (not_lt.mpr hk.le)
      rw [if_neg h2, if_neg h, ih]

theorem insertByValue_scaleW (k : ℚ) (p : Obs) : ∀ l : List Obs,
    insertByValue (p.1, k * p.2) (scaleW k l) = scaleW k (insertByValue p l) := by
  intro l
  induction l with
  | nil => rfl
  | cons q rest ih =>
    rw [scaleW_cons]
    simp only [insertByValue]
    by_cases h : p.1 ≤ q.1
    · simp [h, scaleW_cons]
    · simp only [h, if_false, scaleW_cons, List.cons.injEq, true_and]
      exact ih

theorem sortByValue_scaleW (k : ℚ) : ∀ l : List Obs,
    sortByValue (scaleW k l) = scaleW k (sortByValue l) := by
  intro l
  induction l with
  | nil => rfl
  | cons p rest ih =>
    show insertByValue (p.1, k * p.2) (sortByValue (scaleW k rest))
      = scaleW k (insertByValue p (sortByValue rest))
    rw [ih]
    exact insertByValue_scaleW k p (sortByValue rest)

theorem wTotal_scaleW (k : ℚ) : ∀ l : List Obs, wTotal (scaleW k l) = k * wTotal l := by
  intro l
  induction l with
  | nil => simp [wTotal, scaleW]
  | cons p rest ih =>
    rw [scaleW_cons, wTotal_cons, wTotal_cons, ih]
    ring

theorem wvTotal_scaleW (k : ℚ) : ∀ l : List Obs, wvTotal (scaleW k l) = k * wvTotal l := by
  intro l
  induction l with
  | nil => simp [wvTotal, scaleW]
  | cons p rest ih =>
    rw [scaleW_cons, wvTotal_cons, wvTotal_cons, ih]
    ring

theorem sumCumwvW_scaleW (k : ℚ) : ∀ (l : List Obs) (b : ℚ),
    sumCumwvW (k * b) (scaleW k l) = k ^ 2 * sumCumwvW b l := by
  intro l
  induction l with
  | nil => intro b; simp [sumCumwvW, scaleW]
  | cons p rest ih =>
    intro b
    rw [scaleW_cons]
    show (k * b + p.1 * (k * p.2)) * (k * p.2) + sumCumwvW (k * b + p.1 * (k * p.2)) (scaleW k rest)
      = k ^ 2 * ((b + p.1 * p.2) * p.2 + sumCumwvW (b + p.1 * p.2) rest)
    have h : k * b + p.1 * (k * p.2) = k * (b + p.1 * p.2) := by ring
    rw [h, ih (b + p.1 * p.2)]
    ring

/-! Claim theorems. -/

/-- C1: conservation of the shift redistribution.  For any family of target
variables sharing one non-negative weight array, if the positive-only grand
total is positive then the weighted sum injected by `apply_shift`
(the algorithm of `compute_mtrs._apply_shift` and of the unit tests'
`_redistribute`) equals `totalFreed` exactly. -/
theorem C1_shift_conservation (ws : List ℚ) (totalFreed : ℚ) (vars : List (List ℚ))
    (hw : ∀ w ∈ ws, 0 ≤ w) (hpos : 0 < (vars.map (posTotal ws)).sum) :
    ((apply_shift ws totalFreed vars).map (wsum ws)).sum
      - (vars.map (wsum ws)).sum = totalFreed := by
  set TP := (vars.map (posTotal ws)).sum with hTP
  have hTPne : TP ≠ 0 := ne_of_gt hpos
  have hmain : ((apply_shift ws totalFreed vars).map (wsum ws)).sum
      = (vars.map (fun vs => wsum ws vs + totalFreed / TP * posTotal ws vs)).sum := by
    unfold apply_shift
    rw [← hTP, List.map_map]
    refine congrArg List.sum (List.map_congr_left ?_)
    intro vs _
    simp only [Function.comp_apply]
    by_cases hguard : 0 < posTotal ws vs ∧ 0 < TP
    · rw [if_pos hguard, wsum_scalePos]
      have hpt : posTotal ws vs ≠ 0 := ne_of_gt hguard.1
      field_simp
      ring
    · rw [if_neg hguard]
      have hpt0 : posTotal ws vs = 0 := by
        rcases (not_and_or.mp hguard) with h | h
        · exact le_antisymm (not_lt.mp h) (posTotal_nonneg ws vs hw)
        · exact absurd hpos h
      rw [hpt0]
      ring
  rw [hmain, list_sum_map_add, list_sum_map_mul_left, ← hTP,
    div_mul_cancel₀ totalFreed hTPne]
  ring

/-- Witness for C1 at the heavy-loss inputs of
`test_conservation_heavy_losses`. -/
theorem C1_shift_conservation_witness :
    (∀ w ∈ [(1 : ℚ), 1, 1], 0 ≤ w)
    ∧ 0 < (([[10000, -8000, 5000], [-500, 200, -300]] : List (List ℚ)).map
        (posTotal [1, 1, 1])).sum
    ∧ ((apply_shift [1, 1, 1] 50000 [[10000, -8000, 5000], [-500, 200, -300]]).map
          (wsum [1, 1, 1])).sum
        - (([[10000, -8000, 5000], [-500, 200, -300]] : List (List ℚ)).map
          (wsum [1, 1, 1])).sum = 50000 :=
  ⟨by norm_num, by norm_num [posTotal],
    C1_shift_conservation [1, 1, 1] 50000 [[10000, -8000, 5000], [-500, 200, -300]]
      (by norm_num) (by norm_num [posTotal])⟩

/-- C2: the claim says every implementation of the shift redistribution leaves
entries with negative value unchanged; `_apply_shift` of
`labor_capital_shift.py` multiplies every entry by the scale factor, so on the
spec's own test vector `[500, -200, 300]` with unit weights and
`totalFreed = 300` (scale `1.5`) the `-200` entry becomes `-300`. -/
theorem C2_labor_shift_alters_negative_entry :
    lcs_apply_shift [1, 1, 1] 300 [[500, -200, 300]] = [[750, -300, 450]] := by
  norm_num [lcs_apply_shift, wsum]

/-- C3 counterexample: doubling every weight changes the value returned by
`weighted_gini` of `capital_income_doubling.py` from `1/2` to `1/4` on the
spec's own two-person sample, refuting exact weight-scale invariance. -/
theorem C3_gini_not_weight_scale_invariant :
    weighted_gini [(0, 1), (100, 1)] = some (1 / 2)
    ∧ weighted_gini [(0, 2), (100, 2)] = some (1 / 4) := by
  constructor <;> norm_num [weighted_gini, filterPosW, sortByValue, insertByValue, wTotal,
    wvTotal, sumCumwvW] <;> simp

/-- C4 counterexample: on values `0, 1` with weights `2, 2` the source
`weighted_gini` returns `1/4` while the reference midpoint-rank formula of
the spec gives `1/2`. -/
theorem C4_gini_formula_counterexample :
    weighted_gini [(0, 2), (1, 2)] = some (1 / 4)
    ∧ weighted_gini_spec [(0, 2), (1, 2)] = 1 / 2 := by
  constructor <;> norm_num [weighted_gini, weighted_gini_spec, filterPosW, sortByValue,
    insertByValue, wTotal, wvTotal, sumCumwvW, sumWvF] <;> simp

/-- C5: with all weights zero the filtered sample is empty and
`weighted_gini` raises (`cumw[-1]` on an empty array), modelled by `none`,
instead of returning `0.0` as the claim, the spec and
`test_empty_after_filtering` require; the weighted-mean-zero case does
return `0.0`. -/
theorem C5_gini_empty_filter_raises :
    weighted_gini [(100, 0), (200, 0)] = none
    ∧ weighted_gini [(5, 1), (-5, 1)] = some 0 := by
  constructor <;> norm_num [weighted_gini, filterPosW, sortByValue, insertByValue, wTotal,
    wvTotal, sumCumwvW] <;> simp

/-- C6 counterexample: on the empty input (which vacuously has strictly
positive weights and bucket-total sum `0 ≤ 0`) `compute_decile_shares`
raises (`cumw[-1]` on an empty array, modelled by `none`) instead of
returning `n` shares. -/
theorem C6_decile_shares_empty_input_counterexample :
    compute_decile_shares ([] : List ℚ) [] 10 = none := by
  norm_num [compute_decile_shares, sortByValue]

/-- C7 counterexample: with a negative income value the resampled Lorenz
ordinates are not non-decreasing: `y = [0, -1, 1]`. -/
theorem C7_lorenz_negative_values_counterexample :
    lorenz_curve [-100, 200] [1, 1] 3 = some ([0, 1 / 2, 1], [0, -1, 1])
    ∧ ¬ List.Chain' (· ≤ ·) [(0 : ℚ), -1, 1] := by
  constructor
  · norm_num [lorenz_curve, lorenzPts, lorenzMap, sortByValue, insertByValue, wTotal, wvTotal,
      cumPoints, linspace01, interp, interpGo, List.range_succ] <;> simp
  · norm_num [List.chain'_cons]

/-- C8: sign convention of `net_fiscal_impact`: the total change is the sum
of the signed per-component changes, a pure increase `d` of a tax-like
component yields `total_change = d`, and a pure increase `d` of a
benefit-like component yields `total_change = -d`. -/
theorem C8_net_fiscal_impact_signs (b c : RevenueComponents) (d : ℚ) :
    (net_fiscal_impact c b).total_change =
      (c.income_tax - b.income_tax) + (c.payroll - b.payroll)
        - (c.eitc - b.eitc) - (c.ctc - b.ctc) - (c.snap - b.snap)
    ∧ (net_fiscal_impact { b with income_tax := b.income_tax + d } b).total_change = d
    ∧ (net_fiscal_impact { b with payroll := b.payroll + d } b).total_change = d
    ∧ (net_fiscal_impact { b with eitc := b.eitc + d } b).total_change = -d
    ∧ (net_fiscal_impact { b with ctc := b.ctc + d } b).total_change = -d
    ∧ (net_fiscal_impact { b with snap := b.snap + d } b).total_change = -d := by
  refine ⟨?_, ?_, ?_, ?_, ?_, ?_⟩ <;> (simp [net_fiscal_impact]; try ring)

theorem weightedTotal_bump (delta : ℚ) : ∀ vals ws : List ℚ,
    weightedTotal (proportionalBump delta vals) ws = (1 + delta) * weightedTotal vals ws := by
  intro vals
  induction vals with
  | nil => intro ws; simp [weightedTotal, proportionalBump]
  | cons v vs ih =>
    intro ws
    cases ws with
    | nil => simp [weightedTotal, proportionalBump]
    | cons w ws =>
      have h := ih ws
      simp only [weightedTotal, proportionalBump, List.map_cons, List.zipWith_cons_cons,
        List.sum_cons] at h ⊢
      rw [h]; ring

/-- C9: the dollar-weighted estimator returns
`1 - delta_net / (T * DELTA_PCT)` whenever the weighted baseline total `T`
is nonzero, and the denominator `T * DELTA_PCT` equals the weighted total
change actually applied by the proportional bump `original * (1 + DELTA_PCT)`. -/
theorem C9_mtr_dollar_weighted (vals ws : List ℚ) (baseNet bumpedNet : ℚ)
    (hT : weightedTotal vals ws ≠ 0) :
    mtr_dollar (weightedTotal vals ws) (bumpedNet - baseNet)
      = some (1 - (bumpedNet - baseNet) / (weightedTotal vals ws * DELTA_PCT))
    ∧ weightedTotal vals ws * DELTA_PCT
      = weightedTotal (proportionalBump DELTA_PCT vals) ws - weightedTotal vals ws := by
  have hne : weightedTotal vals ws * DELTA_PCT ≠ 0 :=
    mul_ne_zero hT (by norm_num [DELTA_PCT])
  constructor
  · simp [mtr_dollar, hne]
  · rw [weightedTotal_bump]; ring

/-- Witness for C9 at a concrete sample. -/
theorem C9_mtr_dollar_weighted_witness :
    weightedTotal [100, 200] [1, 2] ≠ 0
    ∧ (mtr_dollar (weightedTotal [100, 200] [1, 2]) (30 - 10)
        = some (1 - (30 - 10) / (weightedTotal [100, 200] [1, 2] * DELTA_PCT))
      ∧ weightedTotal [100, 200] [1, 2] * DELTA_PCT
        = weightedTotal (proportionalBump DELTA_PCT [100, 200]) [1, 2]
          - weightedTotal [100, 200] [1, 2]) :=
  ⟨by norm_num [weightedTotal],
    C9_mtr_dollar_weighted [100, 200] [1, 2] 10 30 (by norm_num [weightedTotal])⟩

/-- C10 counterexample: with a negative weight present,
`compute_decile_shares` (which does not filter weights) returns `[-2, 0]`
on values `[1, 2]`, weights `[1, -1]`, while the weight-positive subsample
`([1], [1])` yields `[0, 1]`. -/
theorem C10_negative_weight_counterexample :
    compute_decile_shares [1, 2] [1, -1] 2 = some [-2, 0]
    ∧ compute_decile_shares [1] [1] 2 = some [0, 1] := by
  constructor <;> norm_num [compute_decile_shares, sortByValue, insertByValue, rawShares,
    maskSum, wTotal, List.range_succ] <;> simp

/-- C3 amended: rescaling every weight by `k > 0` shifts the value returned
by `weighted_gini` by exactly `(1/k - 1)/total_w` (the discrete
`+ 1/total_weight` correction term is the only part of the formula that is
not weight-scale invariant), whenever the filtered sample has nonzero total
weighted value. -/
theorem C3_gini_weight_rescale_relation (l : List Obs) (k g : ℚ) (hk : 0 < k)
    (hT : wvTotal (sortByValue (filterPosW l)) ≠ 0)
    (hg : weighted_gini l = some g) :
    weighted_gini (scaleW k l)
      = some (g + (1 / k - 1) / wTotal (sortByValue (filterPosW l))) := by
  have hne : sortByValue (filterPosW l) ≠ [] := by
    intro h0
    apply hT
    rw [h0]
    simp [wvTotal]
  have hW : 0 < wTotal (sortByValue (filterPosW l)) := gSample_wTotal_pos l hne
  have hscale : sortByValue (filterPosW (scaleW k l))
      = scaleW k (sortByValue (filterPosW l)) := by
    rw [filterPosW_scaleW k hk, sortByValue_scaleW]
  have hg2 : (1 : ℚ)
      - 2 * sumCumwvW 0 (sortByValue (filterPosW l))
        / (wTotal (sortByValue (filterPosW l)) * wvTotal (sortByValue (filterPosW l)))
      + 1 / wTotal (sortByValue (filterPosW l)) = g := by
    have h := hg
    simp only [weighted_gini] at h
    rw [if_neg hne, if_neg hT] at h
    exact Option.some_inj.mp h
  have hne2 : scaleW k (sortByValue (filterPosW l)) ≠ [] := by
    intro h0
    exact hne (List.map_eq_nil.mp h0)
  have hT2 : wvTotal (scaleW k (sortByValue (filterPosW l))) ≠ 0 := by
    rw [wvTotal_scaleW]
    exact mul_ne_zero (ne_of_gt hk) hT
  have hS : sumCumwvW 0 (scaleW k (sortByValue (filterPosW l)))
      = k ^ 2 * sumCumwvW 0 (sortByValue (filterPosW l)) := by
    simpa using sumCumwvW_scaleW k (sortByValue (filterPosW l)) 0
  simp only [weighted_gini]
  rw [hscale, if_neg hne2, if_neg hT2, hS, wTotal_scaleW, wvTotal_scaleW]
  rw [← hg2]
  congr 1
  field_simp
  ring

/-- Witness for the C3 rescaling relation at the two-person sample with
`k = 2`. -/
theorem C3_gini_weight_rescale_relation_witness :
    (0 : ℚ) < 2
    ∧ wvTotal (sortByValue (filterPosW [(0, 1), (100, 1)])) ≠ 0
    ∧ weighted_gini [(0, 1), (100, 1)] = some (1 / 2)
    ∧ weighted_gini (scaleW 2 [(0, 1), (100, 1)])
      = some (1 / 2 + (1 / 2 - 1) / wTotal (sortByValue (filterPosW [(0, 1), (100, 1)]))) :=
  ⟨by norm_num,
    by norm_num [wvTotal, sortByValue, insertByValue, filterPosW],
    by norm_num [weighted_gini, filterPosW, sortByValue, insertByValue, wTotal, wvTotal,
      sumCumwvW]; simp,
    C3_gini_weight_rescale_relation [(0, 1), (100, 1)] 2 (1 / 2) (by norm_num)
      (by norm_num [wvTotal, sortByValue, insertByValue, filterPosW])
      (by norm_num [weighted_gini, filterPosW, sortByValue, insertByValue, wTotal, wvTotal,
        sumCumwvW]; simp)⟩

/-- C4 amended: on every input whose filtered sample is non-empty with
nonzero weighted mean, `weighted_gini` returns the spec's midpoint-rank
value plus the correction `1/total_w - Σ(w_i^2 v_i)/(total_w * total_wv)`;
the two coincide exactly when `Σ w_i^2 v_i = total_wv` (for instance for
unit weights), not in general. -/
theorem C4_gini_correction_formula (l : List Obs)
    (hT : wvTotal (sortByValue (filterPosW l)) ≠ 0) :
    weighted_gini l = some (weighted_gini_spec l
      + 1 / wTotal (sortByValue (filterPosW l))
      - sqWvTotal (sortByValue (filterPosW l))
        / (wTotal (sortByValue (filterPosW l)) * wvTotal (sortByValue (filterPosW l)))) := by
  have hne : sortByValue (filterPosW l) ≠ [] := by
    intro h0
    apply hT
    rw [h0]
    simp [wvTotal]
  have hW : 0 < wTotal (sortByValue (filterPosW l)) := gSample_wTotal_pos l hne
  have habel := sumWVCumW_add_sumCumwvW (sortByValue (filterPosW l))
  have hS1 : sumWVCumW 0 (sortByValue (filterPosW l))
      = wTotal (sortByValue (filterPosW l)) * wvTotal (sortByValue (filterPosW l))
        + sqWvTotal (sortByValue (filterPosW l))
        - sumCumwvW 0 (sortByValue (filterPosW l)) := by
    linarith [habel]
  simp only [weighted_gini, weighted_gini_spec]
  rw [if_neg hne, if_neg hT]
  congr 1
  rw [sumWvF_eq (wTotal (sortByValue (filterPosW l))) (ne_of_gt hW)
    (sortByValue (filterPosW l)) 0, hS1]
  field_simp
  ring

/-- Witness for the C4 correction formula at values `0, 1` with weights
`2, 2`. -/
theorem C4_gini_correction_formula_witness :
    wvTotal (sortByValue (filterPosW [(0, 2), (1, 2)])) ≠ 0
    ∧ weighted_gini [(0, 2), (1, 2)] = some (weighted_gini_spec [(0, 2), (1, 2)]
      + 1 / wTotal (sortByValue (filterPosW [(0, 2), (1, 2)]))
      - sqWvTotal (sortByValue (filterPosW [(0, 2), (1, 2)]))
        / (wTotal (sortByValue (filterPosW [(0, 2), (1, 2)]))
          * wvTotal (sortByValue (filterPosW [(0, 2), (1, 2)])))) :=
  ⟨by norm_num [wvTotal, sortByValue, insertByValue, filterPosW],
    C4_gini_correction_formula [(0, 2), (1, 2)]
      (by norm_num [wvTotal, sortByValue, insertByValue, filterPosW])⟩

theorem list_sum_map_div (l : List ℚ) (t : ℚ) :
    (l.map (fun s => s / t)).sum = l.sum / t := by
  induction l with
  | nil => simp
  | cons a l ih =>
    simp only [List.map_cons, List.sum_cons, ih]
    ring

/-- The accumulator form of the bucket sums used by the embedding agrees
with the prefix-sum formulation of the claim. -/
theorem maskSum_eq_specBucketSum : ∀ (f : List Obs) (a lo hi : ℚ) (fb : Bool),
    maskSum a lo hi fb f = specBucketSum a lo hi fb f := by
  intro f
  induction f with
  | nil => intro a lo hi fb; simp [maskSum, specBucketSum]
  | cons p rest ih =>
    intro a lo hi fb
    show (if (if fb then a + p.2 ≤ hi else lo < a + p.2 ∧ a + p.2 ≤ hi) then p.1 * p.2 else 0)
        + maskSum (a + p.2) lo hi fb rest = specBucketSum a lo hi fb (p :: rest)
    rw [ih (a + p.2) lo hi fb]
    simp only [specBucketSum, List.length_cons, List.range_succ_eq_map, List.map_cons,
      List.sum_cons, List.map_map]
    congr 1
    · norm_num [wTotal]
    · refine congrArg List.sum (List.map_congr_left ?_)
      intro j hj
      simp only [Function.comp_apply, Nat.succ_eq_add_one, List.take_succ_cons, wTotal_cons,
        List.getD_cons_succ, ← add_assoc]

/-- C6 amended: on every non-empty values/weights input with strictly
positive weights, `compute_decile_shares` returns (without raising) exactly
`n` shares; they sum to `1` when the bucket-total sum is positive, the
unnormalized bucket totals are returned when that sum is not positive, and
bucket `i` collects exactly the observations of the value-sorted sample
whose cumulative weight lies in `(i/n*W, (i+1)/n*W]`, the first bucket
keeping everything with cumulative weight at most `W/n`. -/
theorem C6_decile_shares_postcondition (vals ws : List ℚ) (n : ℕ)
    (hlen : vals.length = ws.length) (hne : vals ≠ []) (hw : ∀ w ∈ ws, 0 < w) :
    ∃ shares : List ℚ,
      compute_decile_shares vals ws n = some shares
      ∧ shares.length = n
      ∧ (0 < (rawShares (sortByValue (vals.zip ws)) n).sum → shares.sum = 1)
      ∧ ((rawShares (sortByValue (vals.zip ws)) n).sum ≤ 0
          → shares = rawShares (sortByValue (vals.zip ws)) n)
      ∧ rawShares (sortByValue (vals.zip ws)) n
        = (List.range n).map (fun i : ℕ =>
            specBucketSum 0 ((i : ℚ) / (n : ℚ) * wTotal (sortByValue (vals.zip ws)))
              (((i : ℚ) + 1) / (n : ℚ) * wTotal (sortByValue (vals.zip ws))) (i == 0)
              (sortByValue (vals.zip ws))) := by
  have hzip : vals.zip ws ≠ [] := by
    intro h0
    rcases List.zip_eq_nil_iff.mp h0 with h | h
    · exact hne h
    · refine hne (List.length_eq_zero.mp ?_)
      rw [hlen, h]
      rfl
  have hsne : sortByValue (vals.zip ws) ≠ [] := by
    intro h0
    apply hzip
    have hperm := sortByValue_perm (vals.zip ws)
    rw [h0] at hperm
    exact hperm.symm.eq_nil
  simp only [compute_decile_shares]
  rw [if_neg hsne]
  refine ⟨_, rfl, ?_, ?_, ?_, ?_⟩
  · have hlenraw : (rawShares (sortByValue (vals.zip ws)) n).length = n := by
      rw [rawShares, List.length_map]
      exact List.length_range n
    split
    · simpa using hlenraw
    · exact hlenraw
  · intro hpos
    rw [if_pos hpos, list_sum_map_div, div_self (ne_of_gt hpos)]
  · intro hle
    rw [if_neg (not_lt.mpr hle)]
  · simp only [rawShares]
    refine List.map_congr_left ?_
    intro i _
    exact maskSum_eq_specBucketSum _ 0 _ _ _

/-- Witness for C6 on a two-person sample with `n = 2`. -/
theorem C6_decile_shares_postcondition_witness :
    compute_decile_shares [10, 30] [1, 1] 2 = some [1 / 4, 3 / 4]
    ∧ ∃ shares : List ℚ,
        compute_decile_shares [10, 30] [1, 1] 2 = some shares
        ∧ shares.length = 2
        ∧ (0 < (rawShares (sortByValue (([10, 30] : List ℚ).zip [1, 1])) 2).sum
            → shares.sum = 1)
        ∧ ((rawShares (sortByValue (([10, 30] : List ℚ).zip [1, 1])) 2).sum ≤ 0
            → shares = rawShares (sortByValue (([10, 30] : List ℚ).zip [1, 1])) 2)
        ∧ rawShares (sortByValue (([10, 30] : List ℚ).zip [1, 1])) 2
          = (List.range 2).map (fun i : ℕ =>
              specBucketSum 0
                ((i : ℚ) / (2 : ℕ) * wTotal (sortByValue (([10, 30] : List ℚ).zip [1, 1])))
                (((i : ℚ) + 1) / (2 : ℕ)
                  * wTotal (sortByValue (([10, 30] : List ℚ).zip [1, 1]))) (i == 0)
                (sortByValue (([10, 30] : List ℚ).zip [1, 1]))) :=
  ⟨by norm_num [compute_decile_shares, sortByValue, insertByValue, rawShares, maskSum, wTotal,
      List.range_succ]; simp,
    C6_decile_shares_postcondition [10, 30] [1, 1] 2 (by norm_num) (by simp)
      (by norm_num)⟩

theorem wTotal_perm {l m : List Obs} (h : List.Perm l m) : wTotal l = wTotal m := by
  have := (h.map (fun p : Obs => p.2)).sum_eq
  simpa [wTotal] using this

theorem wvTotal_perm {l m : List Obs} (h : List.Perm l m) : wvTotal l = wvTotal m := by
  have := (h.map (fun p : Obs => p.1 * p.2)).sum_eq
  simpa [wvTotal] using this

theorem wTotal_zip : ∀ vals ws : List ℚ, vals.length = ws.length →
    wTotal (vals.zip ws) = ws.sum := by
  intro vals
  induction vals with
  | nil =>
    intro ws h
    cases ws with
    | nil => simp [wTotal]
    | cons w ws2 => simp at h
  | cons v vs ih =>
    intro ws h
    cases ws with
    | nil => simp at h
    | cons w ws2 =>
      simp only [List.zip_cons_cons, wTotal_cons, List.sum_cons]
      rw [ih ws2 (by simpa using h)]

theorem wvTotal_nonneg {l : List Obs} (h : ∀ p ∈ l, 0 ≤ p.1 ∧ 0 ≤ p.2) : 0 ≤ wvTotal l := by
  induction l with
  | nil => simp [wvTotal]
  | cons p rest ih =>
    rw [wvTotal_cons]
    have h1 := h p (List.mem_cons_self p rest)
    have h2 : 0 ≤ wvTotal rest := ih (fun q hq => h q (List.mem_cons_of_mem p hq))
    exact add_nonneg (mul_nonneg h1.1 h1.2) h2

theorem cumPoints_cons (a b : ℚ) (p : Obs) (l : List Obs) :
    cumPoints a b (p :: l)
      = (a + p.2, b + p.1 * p.2) :: cumPoints (a + p.2) (b + p.1 * p.2) l := rfl

theorem interp_cons (q : Obs) (rest : List Obs) (x : ℚ) :
    interp (q :: rest) x = if x < q.1 then q.2 else interpGo q rest x := rfl

/-- The cumulative points of a non-negative sample form a chain that is
non-decreasing in both coordinates. -/
theorem cumPoints_chain : ∀ (l : List Obs) (a b : ℚ),
    (∀ p ∈ l, 0 ≤ p.1 ∧ 0 ≤ p.2) →
    List.Chain' (fun c d : Obs => c.1 ≤ d.1 ∧ c.2 ≤ d.2) ((a, b) :: cumPoints a b l) := by
  intro l
  induction l with
  | nil => intro a b _; exact List.chain'_singleton _
  | cons p rest ih =>
    intro a b h
    rw [cumPoints_cons, List.chain'_cons]
    have hp := h p (List.mem_cons_self p rest)
    exact ⟨⟨le_add_of_nonneg_right hp.2, le_add_of_nonneg_right (mul_nonneg hp.1 hp.2)⟩,
      ih (a + p.2) (b + p.1 * p.2) (fun q hq => h q (List.mem_cons_of_mem p hq))⟩

/-- Bounds and the zero-propagation property of the cumulative points of a
non-negative sample. -/
theorem cumPoints_mem_props : ∀ (l : List Obs) (a b : ℚ),
    (∀ p ∈ l, 0 ≤ p.1 ∧ 0 ≤ p.2) → 0 ≤ a → 0 ≤ b → (a = 0 → b = 0) →
    ∀ c ∈ cumPoints a b l,
      0 ≤ c.1 ∧ 0 ≤ c.2 ∧ (c.1 = 0 → c.2 = 0) ∧ c.1 ≤ a + wTotal l := by
  intro l
  induction l with
  | nil => intro a b _ _ _ _ c hc; simp [cumPoints] at hc
  | cons p rest ih =>
    intro a b h ha hb hab c hc
    have hp := h p (List.mem_cons_self p rest)
    have hwr : 0 ≤ wTotal rest :=
      wTotal_nonneg (fun q hq => (h q (List.mem_cons_of_mem p hq)).2)
    have ha2 : 0 ≤ a + p.2 := add_nonneg ha hp.2
    have hb2 : 0 ≤ b + p.1 * p.2 := add_nonneg hb (mul_nonneg hp.1 hp.2)
    have hab2 : a + p.2 = 0 → b + p.1 * p.2 = 0 := by
      intro h0
      have hpa : a = 0 := le_antisymm (by linarith [hp.2]) ha
      have hpw : p.2 = 0 := by linarith
      rw [hab hpa, hpw]
      ring
    rw [cumPoints_cons] at hc
    rcases List.mem_cons.mp hc with hc | hc
    · subst hc
      refine ⟨ha2, hb2, hab2, ?_⟩
      rw [wTotal_cons]
      show a + p.2 ≤ a + (p.2 + wTotal rest)
      linarith
    · have hihc := ih (a + p.2) (b + p.1 * p.2)
        (fun q hq => h q (List.mem_cons_of_mem p hq)) ha2 hb2 hab2 c hc
      refine ⟨hihc.1, hihc.2.1, hihc.2.2.1, ?_⟩
      rw [wTotal_cons]
      linarith [hihc.2.2.2]

theorem cumPoints_getLast? : ∀ (l : List Obs) (a b : ℚ), l ≠ [] →
    (cumPoints a b l).getLast? = some (a + wTotal l, b + wvTotal l) := by
  intro l
  induction l with
  | nil => intro a b h; exact absurd rfl h
  | cons p rest ih =>
    intro a b _
    cases rest with
    | nil => simp [cumPoints, wTotal, wvTotal]
    | cons q rest2 =>
      rw [cumPoints_cons, cumPoints_cons, List.getLast?_cons_cons, ← cumPoints_cons,
        ih (a + p.2) (b + p.1 * p.2) (by simp)]
      simp only [wTotal_cons, wvTotal_cons, Option.some.injEq, Prod.mk.injEq]
      constructor
      · ring
      · ring

/-- When every node abscissa is at most `x`, the walk reaches the final
node and returns its ordinate (the right clamp of `np.interp`). -/
theorem interpGo_last (x : ℚ) : ∀ (pts : List Obs) (q : Obs),
    (∀ p ∈ pts, p.1 ≤ x) → interpGo q pts x = (pts.getLastD q).2 := by
  intro pts
  induction pts with
  | nil => intro q _; rfl
  | cons r rest ih =>
    intro q h
    have hr : r.1 ≤ x := h r (List.mem_cons_self r rest)
    show (if r.1 ≤ x then interpGo r rest x else _) = _
    rw [if_pos hr, List.getLastD_cons]
    exact ih r (fun p hp => h p (List.mem_cons_of_mem r hp))

/-- Interpolating at `0` from the node `(0, 0)` gives `0` when nodes with
abscissa `0` also have ordinate `0`. -/
theorem interpGo_zero : ∀ (pts : List Obs) (q : Obs), q.1 = 0 → q.2 = 0 →
    (∀ p ∈ pts, 0 ≤ p.1 ∧ (p.1 = 0 → p.2 = 0)) → interpGo q pts 0 = 0 := by
  intro pts
  induction pts with
  | nil => intro q _ h2 _; exact h2
  | cons r rest ih =>
    intro q h1 h2 h
    have hr := h r (List.mem_cons_self r rest)
    show (if r.1 ≤ 0 then interpGo r rest 0
      else q.2 + (r.2 - q.2) * (0 - q.1) / (r.1 - q.1)) = 0
    by_cases hc : r.1 ≤ 0
    · rw [if_pos hc]
      have hr1 : r.1 = 0 := le_antisymm hc hr.1
      exact ih r hr1 (hr.2 hr1) (fun p hp => h p (List.mem_cons_of_mem r hp))
    · rw [if_neg hc, h1, h2]
      ring

/-- The walk never returns less than the ordinate of the current node. -/
theorem interpGo_ge (x : ℚ) : ∀ (pts : List Obs) (q : Obs),
    List.Chain' (fun c d : Obs => c.1 ≤ d.1 ∧ c.2 ≤ d.2) (q :: pts) → q.1 ≤ x →
    q.2 ≤ interpGo q pts x := by
  intro pts
  induction pts with
  | nil => intro q _ _; exact le_refl _
  | cons r rest ih =>
    intro q hch hq
    rw [List.chain'_cons] at hch
    show q.2 ≤ if r.1 ≤ x then interpGo r rest x
      else q.2 + (r.2 - q.2) * (x - q.1) / (r.1 - q.1)
    by_cases hc : r.1 ≤ x
    · rw [if_pos hc]
      exact le_trans hch.1.2 (ih r hch.2 hc)
    · rw [if_neg hc]
      have h1 : 0 ≤ r.2 - q.2 := by linarith [hch.1.2]
      have h2 : 0 ≤ x - q.1 := by linarith
      have h3 : 0 < r.1 - q.1 := by linarith [not_le.mp hc]
      exact le_add_of_nonneg_right (div_nonneg (mul_nonneg h1 h2) h3.le)

/-- Monotonicity of the interpolation walk over a chain of nodes that is
non-decreasing in both coordinates. -/
theorem interpGo_mono (a b : ℚ) (hab : a ≤ b) : ∀ (pts : List Obs) (q : Obs),
    List.Chain' (fun c d : Obs => c.1 ≤ d.1 ∧ c.2 ≤ d.2) (q :: pts) → q.1 ≤ a →
    interpGo q pts a ≤ interpGo q pts b := by
  intro pts
  induction pts with
  | nil => intro q _ _; exact le_refl _
  | cons r rest ih =>
    intro q hch hqa
    rw [List.chain'_cons] at hch
    show (if r.1 ≤ a then interpGo r rest a else q.2 + (r.2 - q.2) * (a - q.1) / (r.1 - q.1))
      ≤ (if r.1 ≤ b then interpGo r rest b else q.2 + (r.2 - q.2) * (b - q.1) / (r.1 - q.1))
    by_cases hra : r.1 ≤ a
    · rw [if_pos hra, if_pos (le_trans hra hab)]
      exact ih r hch.2 hra
    · rw [if_neg hra]
      have h1 : 0 ≤ r.2 - q.2 := by linarith [hch.1.2]
      have h3 : 0 < r.1 - q.1 := by linarith [not_le.mp hra]
      by_cases hrb : r.1 ≤ b
      · rw [if_pos hrb]
        have ht : a - q.1 ≤ r.1 - q.1 := by linarith [not_le.mp hra]
        have hmul : (r.2 - q.2) * (a - q.1) ≤ (r.2 - q.2) * (r.1 - q.1) :=
          mul_le_mul_of_nonneg_left ht h1
        have hdiv : (r.2 - q.2) * (a - q.1) / (r.1 - q.1)
            ≤ (r.2 - q.2) * (r.1 - q.1) / (r.1 - q.1) := (div_le_div_right h3).mpr hmul
        rw [mul_div_cancel_right₀ _ (ne_of_gt h3)] at hdiv
        have hup : q.2 + (r.2 - q.2) * (a - q.1) / (r.1 - q.1) ≤ r.2 := by linarith
        exact le_trans hup (interpGo_ge b rest r hch.2 hrb)
      · rw [if_neg hrb]
        have hmul : (r.2 - q.2) * (a - q.1) ≤ (r.2 - q.2) * (b - q.1) :=
          mul_le_mul_of_nonneg_left (by linarith) h1
        have hdiv := (div_le_div_right h3).mpr hmul
        linarith

/-- On a diagonal chain of nodes the interpolation is the identity inside
the node range. -/
theorem interpGo_diag (x : ℚ) : ∀ (pts : List Obs) (q : Obs),
    q.2 = q.1 → (∀ p ∈ pts, p.2 = p.1) → q.1 ≤ x → x ≤ (pts.getLastD q).1 →
    interpGo q pts x = x := by
  intro pts
  induction pts with
  | nil =>
    intro q hd _ hqx hxl
    show q.2 = x
    rw [hd]
    exact le_antisymm hqx hxl
  | cons r rest ih =>
    intro q hd hmem hqx hxl
    rw [List.getLastD_cons] at hxl
    have hr := hmem r (List.mem_cons_self r rest)
    show (if r.1 ≤ x then interpGo r rest x
      else q.2 + (r.2 - q.2) * (x - q.1) / (r.1 - q.1)) = x
    by_cases hc : r.1 ≤ x
    · rw [if_pos hc]
      exact ih r hr (fun p hp => hmem p (List.mem_cons_of_mem r hp)) hc hxl
    · rw [if_neg hc]
      have h3 : 0 < r.1 - q.1 := by linarith [not_le.mp hc]
      rw [hd, hr]
      field_simp

theorem linspace01_length (n : ℕ) : (linspace01 n).length = n := by
  simp [linspace01]

theorem linspace01_mem (n : ℕ) : ∀ x ∈ linspace01 n, 0 ≤ x ∧ x ≤ 1 := by
  intro x hx
  simp only [linspace01, List.mem_map, List.mem_range] at hx
  obtain ⟨i, hi, rfl⟩ := hx
  by_cases h : n ≤ 1
  · simp [h]
  · have hpos : (0 : ℚ) < (n : ℚ) - 1 := by
      have h2 : (2 : ℚ) ≤ (n : ℚ) := by exact_mod_cast (by omega : 2 ≤ n)
      linarith
    rw [if_neg h]
    refine ⟨div_nonneg (Nat.cast_nonneg i) hpos.le, ?_⟩
    rw [div_le_one hpos]
    have hle : (i : ℚ) + 1 ≤ (n : ℚ) := by exact_mod_cast hi
    linarith

theorem linspace01_head (n : ℕ) (h : 1 ≤ n) : (linspace01 n).head? = some 0 := by
  obtain ⟨m, rfl⟩ : ∃ m, n = m + 1 := ⟨n - 1, by omega⟩
  simp only [linspace01, List.range_succ_eq_map, List.map_cons, List.head?_cons,
    Option.some.injEq]
  by_cases hm : m + 1 ≤ 1
  · simp [hm]
  · simp [hm]

theorem linspace01_last (n : ℕ) (h : 2 ≤ n) : (linspace01 n).getLast? = some 1 := by
  obtain ⟨m, rfl⟩ : ∃ m, n = m + 1 := ⟨n - 1, by omega⟩
  have hm : ¬ (m + 1 ≤ 1) := by omega
  have hmpos : (0 : ℚ) < (m : ℚ) := by exact_mod_cast (by omega : 0 < m)
  simp only [linspace01, List.range_succ, List.map_append, List.map_cons, List.map_nil,
    List.getLast?_concat, Option.some.injEq]
  rw [if_neg hm]
  have hcast : ((m + 1 : ℕ) : ℚ) - 1 = (m : ℚ) := by push_cast; ring
  rw [hcast, div_self (ne_of_gt hmpos)]

theorem linspace01_chain (n : ℕ) :
    List.Chain' (fun a b : ℚ => 0 ≤ a ∧ a ≤ b) (linspace01 n) := by
  cases n with
  | zero => simp [linspace01]
  | succ m =>
    simp only [linspace01]
    rw [List.chain'_map, List.chain'_range_succ]
    intro i hi
    by_cases h : m + 1 ≤ 1
    · simp [h]
    · have hpos : (0 : ℚ) < ((m + 1 : ℕ) : ℚ) - 1 := by
        have h2 : (2 : ℚ) ≤ ((m + 1 : ℕ) : ℚ) := by exact_mod_cast (by omega : 2 ≤ m + 1)
        linarith
      rw [if_neg h, if_neg h]
      refine ⟨div_nonneg (Nat.cast_nonneg i) hpos.le, ?_⟩
      apply (div_le_div_right hpos).mpr
      exact_mod_cast Nat.le_succ i

/-- Master properties of the resampled Lorenz ordinates over a sorted
non-negative sample with positive total weight. -/
theorem lorenz_props (F : List Obs) (hfne : F ≠ [])
    (hmem : ∀ p ∈ F, 0 ≤ p.1 ∧ 0 ≤ p.2) (hW0 : 0 < wTotal F) (n : ℕ) (hn : 2 ≤ n) :
    ((linspace01 n).map (interp (lorenzPts F))).head? = some 0
    ∧ (0 < wvTotal F → ((linspace01 n).map (interp (lorenzPts F))).getLast? = some 1)
    ∧ (wvTotal F = 0 → (linspace01 n).map (interp (lorenzPts F)) = linspace01 n)
    ∧ List.Chain' (· ≤ ·) ((linspace01 n).map (interp (lorenzPts F))) := by
  have hg0 : lorenzMap (wTotal F) (wvTotal F) (0, 0) = (0, 0) := by
    by_cases hT : 0 < wvTotal F <;> simp [lorenzMap, hT]
  have hchain0 := cumPoints_chain F 0 0 hmem
  have hgmono : ∀ c d : Obs, c.1 ≤ d.1 ∧ c.2 ≤ d.2 →
      (lorenzMap (wTotal F) (wvTotal F) c).1 ≤ (lorenzMap (wTotal F) (wvTotal F) d).1
      ∧ (lorenzMap (wTotal F) (wvTotal F) c).2 ≤ (lorenzMap (wTotal F) (wvTotal F) d).2 := by
    intro c d hcd
    constructor
    · exact (div_le_div_right hW0).mpr hcd.1
    · simp only [lorenzMap]
      by_cases hT : 0 < wvTotal F
      · rw [if_pos hT, if_pos hT]
        exact (div_le_div_right hT).mpr hcd.2
      · rw [if_neg hT, if_neg hT]
        exact (div_le_div_right hW0).mpr hcd.1
  have hchain2 : List.Chain' (fun c d : Obs => c.1 ≤ d.1 ∧ c.2 ≤ d.2)
      ((0, 0) :: (cumPoints 0 0 F).map (lorenzMap (wTotal F) (wvTotal F))) := by
    have h := (@List.chain'_map Obs Obs (fun c d : Obs => c.1 ≤ d.1 ∧ c.2 ≤ d.2)
      (lorenzMap (wTotal F) (wvTotal F)) ((0, 0) :: cumPoints 0 0 F)).mpr
      (hchain0.imp (fun c d h => hgmono c d h))
    rw [List.map_cons, hg0] at h
    exact h
  have hprops := cumPoints_mem_props F 0 0 hmem le_rfl le_rfl (fun _ => rfl)
  have hnodes0 : ∀ p ∈ (cumPoints 0 0 F).map (lorenzMap (wTotal F) (wvTotal F)),
      0 ≤ p.1 ∧ (p.1 = 0 → p.2 = 0) := by
    intro p hp
    obtain ⟨c, hc, rfl⟩ := List.mem_map.mp hp
    obtain ⟨hc1, hc2, hc3, _⟩ := hprops c hc
    constructor
    · exact div_nonneg hc1 hW0.le
    · intro h0
      have hcz : c.1 = 0 := by
        rcases div_eq_zero_iff.mp h0 with h | h
        · exact h
        · exact absurd h (ne_of_gt hW0)
      have hcz2 : c.2 = 0 := hc3 hcz
      simp only [lorenzMap]
      by_cases hT : 0 < wvTotal F
      · rw [if_pos hT, hcz2, zero_div]
      · rw [if_neg hT, hcz, zero_div]
  have hnodesle1 : ∀ p ∈ (cumPoints 0 0 F).map (lorenzMap (wTotal F) (wvTotal F)),
      p.1 ≤ 1 := by
    intro p hp
    obtain ⟨c, hc, rfl⟩ := List.mem_map.mp hp
    obtain ⟨_, _, _, hc4⟩ := hprops c hc
    show c.1 / wTotal F ≤ 1
    rw [div_le_one hW0]
    simpa using hc4
  have hlastnode : ((cumPoints 0 0 F).map (lorenzMap (wTotal F) (wvTotal F))).getLast?
      = some (lorenzMap (wTotal F) (wvTotal F) (wTotal F, wvTotal F)) := by
    rw [List.getLast?_map, cumPoints_getLast? F 0 0 hfne]
    simp
  refine ⟨?_, ?_, ?_, ?_⟩
  · rw [List.head?_map, linspace01_head n (by omega)]
    have h0 : interp (lorenzPts F) 0 = 0 := by
      rw [lorenzPts, interp_cons, if_neg (lt_irrefl 0)]
      exact interpGo_zero _ (0, 0) rfl rfl hnodes0
    rw [Option.map_some', h0]
  · intro hT
    rw [List.getLast?_map, linspace01_last n hn, Option.map_some']
    have h1 : interp (lorenzPts F) 1 = 1 := by
      rw [lorenzPts, interp_cons, if_neg (by norm_num : ¬ (1 : ℚ) < 0)]
      rw [interpGo_last 1 _ (0, 0) hnodesle1]
      rw [List.getLastD_eq_getLast?, hlastnode]
      show (lorenzMap (wTotal F) (wvTotal F) (wTotal F, wvTotal F)).2 = 1
      simp only [lorenzMap, if_pos hT]
      exact div_self (ne_of_gt hT)
    rw [h1]
  · intro hT
    have hid : ∀ x ∈ linspace01 n, interp (lorenzPts F) x = x := by
      intro x hx
      obtain ⟨hx0, hx1⟩ := linspace01_mem n x hx
      rw [lorenzPts, interp_cons, if_neg (not_lt.mpr hx0)]
      refine interpGo_diag x _ (0, 0) rfl ?_ hx0 ?_
      · intro p hp
        obtain ⟨c, hc, rfl⟩ := List.mem_map.mp hp
        simp [lorenzMap, hT]
      · rw [List.getLastD_eq_getLast?, hlastnode]
        show x ≤ wTotal F / wTotal F
        rw [div_self (ne_of_gt hW0)]
        exact hx1
    calc (linspace01 n).map (interp (lorenzPts F))
        = (linspace01 n).map id := List.map_congr_left (fun x hx => hid x hx)
      _ = linspace01 n := List.map_id _
  · rw [List.chain'_map]
    refine (linspace01_chain n).imp ?_
    intro a b hab
    rw [lorenzPts, interp_cons, interp_cons, if_neg (not_lt.mpr hab.1),
      if_neg (not_lt.mpr (le_trans hab.1 hab.2))]
    exact interpGo_mono a b hab.2 _ (0, 0) hchain2 hab.1

/-- C7 amended: for every non-empty values/weights input with NON-NEGATIVE
values, non-negative weights, positive total weight and at least two sample
points, `lorenz_curve` returns `nPoints` evenly spaced abscissas with
`x[0] = 0`, `x[last] = 1`, non-decreasing, ordinates starting at `0`,
ending at `1` when the total weighted value is positive, equal to the
abscissas pointwise when it is `0`, and non-decreasing; with a negative
value present the ordinates can decrease (see the counterexample). -/
theorem C7_lorenz_postcondition (vals ws : List ℚ) (nPoints : ℕ)
    (hlen : vals.length = ws.length) (hne : vals ≠ [])
    (hv : ∀ v ∈ vals, 0 ≤ v) (hw : ∀ w ∈ ws, 0 ≤ w)
    (hWs : 0 < ws.sum) (hn : 2 ≤ nPoints) :
    ∃ xs ys : List ℚ,
      lorenz_curve vals ws nPoints = some (xs, ys)
      ∧ xs.length = nPoints ∧ xs.head? = some 0 ∧ xs.getLast? = some 1
      ∧ List.Chain' (· ≤ ·) xs
      ∧ ys.head? = some 0
      ∧ (0 < wvTotal (sortByValue (vals.zip ws)) → ys.getLast? = some 1)
      ∧ (wvTotal (sortByValue (vals.zip ws)) = 0 → ys = xs)
      ∧ List.Chain' (· ≤ ·) ys := by
  have hzip : vals.zip ws ≠ [] := by
    intro h0
    rcases List.zip_eq_nil_iff.mp h0 with h | h
    · exact hne h
    · refine hne (List.length_eq_zero.mp ?_)
      rw [hlen, h]
      rfl
  have hfne : sortByValue (vals.zip ws) ≠ [] := by
    intro h0
    apply hzip
    have hperm := sortByValue_perm (vals.zip ws)
    rw [h0] at hperm
    exact hperm.symm.eq_nil
  have hmemf : ∀ p ∈ sortByValue (vals.zip ws), 0 ≤ p.1 ∧ 0 ≤ p.2 := by
    intro p hp
    have hpz : p ∈ vals.zip ws := (sortByValue_perm (vals.zip ws)).subset hp
    obtain ⟨pv, pw⟩ := p
    obtain ⟨h1, h2⟩ := List.of_mem_zip hpz
    exact ⟨hv pv h1, hw pw h2⟩
  have hW0 : 0 < wTotal (sortByValue (vals.zip ws)) := by
    rw [wTotal_perm (sortByValue_perm (vals.zip ws)), wTotal_zip vals ws hlen]
    exact hWs
  have hprops := lorenz_props (sortByValue (vals.zip ws)) hfne hmemf hW0 nPoints hn
  exact ⟨linspace01 nPoints,
    (linspace01 nPoints).map (interp (lorenzPts (sortByValue (vals.zip ws)))),
    by simp only [lorenz_curve]; rw [if_neg hfne],
    linspace01_length nPoints,
    linspace01_head nPoints (by omega),
    linspace01_last nPoints hn,
    (linspace01_chain nPoints).imp (fun a b h => h.2),
    hprops.1, hprops.2.1, hprops.2.2.1, hprops.2.2.2⟩

/-- Witness for C7 at a two-person sample with three resampling points. -/
theorem C7_lorenz_postcondition_witness :
    lorenz_curve [1, 3] [1, 1] 3 = some ([0, 1 / 2, 1], [0, 1 / 4, 1])
    ∧ ∃ xs ys : List ℚ,
        lorenz_curve [1, 3] [1, 1] 3 = some (xs, ys)
        ∧ xs.length = 3 ∧ xs.head? = some 0 ∧ xs.getLast? = some 1
        ∧ List.Chain' (· ≤ ·) xs
        ∧ ys.head? = some 0
        ∧ (0 < wvTotal (sortByValue (([1, 3] : List ℚ).zip [1, 1])) → ys.getLast? = some 1)
        ∧ (wvTotal (sortByValue (([1, 3] : List ℚ).zip [1, 1])) = 0 → ys = xs)
        ∧ List.Chain' (· ≤ ·) ys :=
  ⟨by norm_num [lorenz_curve, lorenzPts, lorenzMap, sortByValue, insertByValue, wTotal, wvTotal,
      cumPoints, linspace01, interp, interpGo, List.range_succ]; simp,
    C7_lorenz_postcondition [1, 3] [1, 1] 3 (by norm_num) (by simp) (by norm_num) (by norm_num)
      (by norm_num) (by norm_num)⟩

theorem filterPosW_idem (l : List Obs) : filterPosW (filterPosW l) = filterPosW l := by
  induction l with
  | nil => rfl
  | cons p rest ih =>
    rw [filterPosW_cons]
    by_cases h : 0 < p.2
    · rw [if_pos h, filterPosW_cons, if_pos h, ih]
    · rw [if_neg h, ih]

theorem insertByValue_pairwise (p : Obs) : ∀ l : List Obs,
    List.Pairwise (fun a b : Obs => a.1 ≤ b.1) l →
    List.Pairwise (fun a b : Obs => a.1 ≤ b.1) (insertByValue p l) := by
  intro l
  induction l with
  | nil => intro _; exact List.pairwise_singleton _ _
  | cons q rest ih =>
    intro h
    rw [List.pairwise_cons] at h
    show List.Pairwise _ (if p.1 ≤ q.1 then p :: q :: rest else q :: insertByValue p rest)
    by_cases hpq : p.1 ≤ q.1
    · rw [if_pos hpq]
      refine List.pairwise_cons.mpr ⟨?_, List.pairwise_cons.mpr h⟩
      intro x hx
      rcases List.mem_cons.mp hx with rfl | hx2
      · exact hpq
      · exact le_trans hpq (h.1 x hx2)
    · rw [if_neg hpq]
      refine List.pairwise_cons.mpr ⟨?_, ih h.2⟩
      intro x hx
      rcases List.mem_cons.mp ((insertByValue_perm p rest).subset hx) with rfl | hx2
      · exact le_of_lt (not_le.mp hpq)
      · exact h.1 x hx2

theorem sortByValue_pairwise : ∀ l : List Obs,
    List.Pairwise (fun a b : Obs => a.1 ≤ b.1) (sortByValue l) := by
  intro l
  induction l with
  | nil => exact List.Pairwise.nil
  | cons p rest ih => exact insertByValue_pairwise p (sortByValue rest) ih

/-- Filtering the non-positive weights commutes with inserting into a
value-sorted list. -/
theorem filterPosW_insertByValue : ∀ (l : List Obs) (p : Obs),
    List.Pairwise (fun a b : Obs => a.1 ≤ b.1) l →
    filterPosW (insertByValue p l)
      = if 0 < p.2 then insertByValue p (filterPosW l) else filterPosW l := by
  intro l
  induction l with
  | nil =>
    intro p _
    show filterPosW [p] = _
    rw [filterPosW_cons]
    by_cases h : 0 < p.2
    · rw [if_pos h, if_pos h]
      rfl
    · rw [if_neg h, if_neg h]
  | cons q rest ih =>
    intro p hpw
    rw [List.pairwise_cons] at hpw
    show filterPosW (if p.1 ≤ q.1 then p :: q :: rest else q :: insertByValue p rest) = _
    by_cases hpq : p.1 ≤ q.1
    · rw [if_pos hpq, filterPosW_cons]
      by_cases hp : 0 < p.2
      · rw [if_pos hp, if_pos hp]
        cases hfq : filterPosW (q :: rest) with
        | nil => rfl
        | cons r rs =>
          have hr : r ∈ filterPosW (q :: rest) := by
            rw [hfq]
            exact List.mem_cons_self r rs
          have hrmem : r ∈ q :: rest := List.mem_of_mem_filter hr
          have hpr : p.1 ≤ r.1 := by
            rcases List.mem_cons.mp hrmem with rfl | hx
            · exact hpq
            · exact le_trans hpq (hpw.1 r hx)
          show p :: r :: rs = insertByValue p (r :: rs)
          rw [show insertByValue p (r :: rs)
            = if p.1 ≤ r.1 then p :: r :: rs else r :: insertByValue p rs from rfl, if_pos hpr]
      · rw [if_neg hp, if_neg hp]
    · rw [if_neg hpq]
      by_cases hq : 0 < q.2 <;> by_cases hp : 0 < p.2 <;>
        simp [filterPosW_cons, ih p hpw.2, hq, hp, insertByValue, hpq]

/-- Filtering the non-positive weights commutes with sorting by value. -/
theorem sortByValue_filterPosW : ∀ l : List Obs,
    sortByValue (filterPosW l) = filterPosW (sortByValue l) := by
  intro l
  induction l with
  | nil => rfl
  | cons p rest ih =>
    rw [filterPosW_cons]
    have hcomm := filterPosW_insertByValue (sortByValue rest) p (sortByValue_pairwise rest)
    by_cases h : 0 < p.2
    · rw [if_pos h]
      show insertByValue p (sortByValue (filterPosW rest)) = filterPosW (insertByValue p (sortByValue rest))
      rw [hcomm, if_pos h, ih]
    · rw [if_neg h]
      show sortByValue (filterPosW rest) = filterPosW (insertByValue p (sortByValue rest))
      rw [hcomm, if_neg h, ih]

theorem wTotal_filterPosW (l : List Obs) (h : ∀ p ∈ l, 0 ≤ p.2) :
    wTotal (filterPosW l) = wTotal l := by
  induction l with
  | nil => rfl
  | cons p rest ih =>
    have hp := h p (List.mem_cons_self p rest)
    have ih2 := ih (fun q hq => h q (List.mem_cons_of_mem p hq))
    rw [filterPosW_cons, wTotal_cons]
    by_cases hc : 0 < p.2
    · rw [if_pos hc, wTotal_cons, ih2]
    · have hz : p.2 = 0 := le_antisymm (not_lt.mp hc) hp
      rw [if_neg hc, ih2, hz, zero_add]

theorem wvTotal_filterPosW (l : List Obs) (h : ∀ p ∈ l, 0 ≤ p.2) :
    wvTotal (filterPosW l) = wvTotal l := by
  induction l with
  | nil => rfl
  | cons p rest ih =>
    have hp := h p (List.mem_cons_self p rest)
    have ih2 := ih (fun q hq => h q (List.mem_cons_of_mem p hq))
    rw [filterPosW_cons, wvTotal_cons]
    by_cases hc : 0 < p.2
    · rw [if_pos hc, wvTotal_cons, ih2]
    · have hz : p.2 = 0 := le_antisymm (not_lt.mp hc) hp
      rw [if_neg hc, ih2, hz, mul_zero, zero_add]

/-- Zero-weight observations are inert in every bucket sum. -/
theorem maskSum_filterPosW : ∀ (l : List Obs) (a lo hi : ℚ) (fb : Bool),
    (∀ p ∈ l, 0 ≤ p.2) →
    maskSum a lo hi fb (filterPosW l) = maskSum a lo hi fb l := by
  intro l
  induction l with
  | nil => intro a lo hi fb _; rfl
  | cons p rest ih =>
    intro a lo hi fb h
    have hp := h p (List.mem_cons_self p rest)
    have hrest : ∀ q ∈ rest, 0 ≤ q.2 := fun q hq => h q (List.mem_cons_of_mem p hq)
    rw [filterPosW_cons]
    by_cases hc : 0 < p.2
    · rw [if_pos hc]
      simp only [maskSum]
      rw [ih (a + p.2) lo hi fb hrest]
    · have hz : p.2 = 0 := le_antisymm (not_lt.mp hc) hp
      rw [if_neg hc, ih a lo hi fb hrest]
      simp only [maskSum, hz, mul_zero, add_zero, ite_self, zero_add]

theorem rawShares_filterPosW (s : List Obs) (n : ℕ) (h : ∀ p ∈ s, 0 ≤ p.2) :
    rawShares (filterPosW s) n = rawShares s n := by
  unfold rawShares
  rw [wTotal_filterPosW s h]
  refine List.map_congr_left ?_
  intro i _
  exact maskSum_filterPosW s _ _ _ _ h

theorem interpGo_cons (q r : Obs) (rest : List Obs) (x : ℚ) :
    interpGo q (r :: rest) x
      = if r.1 ≤ x then interpGo r rest x
        else q.2 + (r.2 - q.2) * (x - q.1) / (r.1 - q.1) := rfl

/-- Zero-weight observations are inert in the Lorenz interpolation walk:
they only duplicate the previous node, which the walk steps over. -/
theorem interpGo_cumPoints_filter (W T : ℚ) : ∀ (l : List Obs) (a b x : ℚ) (q : Obs),
    (∀ p ∈ l, 0 ≤ p.2) → q = lorenzMap W T (a, b) → q.1 ≤ x →
    interpGo q ((cumPoints a b (filterPosW l)).map (lorenzMap W T)) x
      = interpGo q ((cumPoints a b l).map (lorenzMap W T)) x := by
  intro l
  induction l with
  | nil => intro a b x q _ _ _; rfl
  | cons p rest ih =>
    intro a b x q hwl hq hqx
    have hp := hwl p (List.mem_cons_self p rest)
    have hrest : ∀ r ∈ rest, 0 ≤ r.2 := fun r hr => hwl r (List.mem_cons_of_mem p hr)
    rw [filterPosW_cons]
    by_cases hc : 0 < p.2
    · rw [if_pos hc, cumPoints_cons, cumPoints_cons, List.map_cons, List.map_cons,
        interpGo_cons, interpGo_cons]
      by_cases hr : (lorenzMap W T (a + p.2, b + p.1 * p.2)).1 ≤ x
      · rw [if_pos hr, if_pos hr]
        exact ih (a + p.2) (b + p.1 * p.2) x _ hrest rfl hr
      · rw [if_neg hr, if_neg hr]
    · have hz : p.2 = 0 := le_antisymm (not_lt.mp hc) hp
      rw [if_neg hc, cumPoints_cons, List.map_cons, interpGo_cons]
      have hnode : lorenzMap W T (a + p.2, b + p.1 * p.2) = q := by
        rw [hq, hz]
        simp
      rw [hnode, if_pos hqx, hz]
      simp only [add_zero, mul_zero]
      exact ih a b x q hrest hq hqx

/-- C10 amended: `weighted_gini` filters `weight ≤ 0` itself, so its result
always equals the result on the weight-positive subsample;
`compute_decile_shares` and `lorenz_curve` do not filter, but under the
data-model invariant that weights are non-negative (with at least one
positive), entries of weight `0` contribute nothing and the results equal
those on the weight-positive subsample; with strictly negative weights the
unfiltered statistics differ (see the counterexample). -/
theorem C10_nonpositive_weight_exclusion (l : List Obs) (vals ws : List ℚ) (n nPoints : ℕ)
    (hw : ∀ w ∈ ws, 0 ≤ w) (hpos : filterPosW (vals.zip ws) ≠ []) :
    weighted_gini (filterPosW l) = weighted_gini l
    ∧ compute_decile_shares ((filterPosW (vals.zip ws)).unzip).1
        ((filterPosW (vals.zip ws)).unzip).2 n
      = compute_decile_shares vals ws n
    ∧ lorenz_curve ((filterPosW (vals.zip ws)).unzip).1
        ((filterPosW (vals.zip ws)).unzip).2 nPoints
      = lorenz_curve vals ws nPoints := by
  have hzipuz : (((filterPosW (vals.zip ws)).unzip).1).zip (((filterPosW (vals.zip ws)).unzip).2)
      = filterPosW (vals.zip ws) := List.zip_unzip _
  have hws : ∀ p ∈ sortByValue (vals.zip ws), 0 ≤ p.2 := by
    intro p hp
    have hpz : p ∈ vals.zip ws := (sortByValue_perm (vals.zip ws)).subset hp
    obtain ⟨pv, pw⟩ := p
    exact hw pw (List.of_mem_zip hpz).2
  have hsfne : filterPosW (sortByValue (vals.zip ws)) ≠ [] := by
    intro h0
    apply hpos
    have hperm : List.Perm (filterPosW (sortByValue (vals.zip ws))) (filterPosW (vals.zip ws)) :=
      (sortByValue_perm (vals.zip ws)).filter _
    rw [h0] at hperm
    exact hperm.symm.eq_nil
  have hsne : sortByValue (vals.zip ws) ≠ [] := by
    intro h0
    apply hsfne
    rw [h0]
    rfl
  refine ⟨?_, ?_, ?_⟩
  · simp only [weighted_gini, filterPosW_idem]
  · simp only [compute_decile_shares, hzipuz, sortByValue_filterPosW]
    rw [if_neg hsfne, if_neg hsne, rawShares_filterPosW (sortByValue (vals.zip ws)) n hws]
  · simp only [lorenz_curve, hzipuz, sortByValue_filterPosW]
    rw [if_neg hsfne, if_neg hsne]
    refine congrArg some (congrArg (Prod.mk (linspace01 nPoints)) ?_)
    refine List.map_congr_left ?_
    intro x hx
    have hx0 : 0 ≤ x := (linspace01_mem nPoints x hx).1
    rw [lorenzPts, lorenzPts, wTotal_filterPosW _ hws, wvTotal_filterPosW _ hws,
      interp_cons, interp_cons, if_neg (not_lt.mpr hx0), if_neg (not_lt.mpr hx0)]
    exact interpGo_cumPoints_filter (wTotal (sortByValue (vals.zip ws)))
      (wvTotal (sortByValue (vals.zip ws))) (sortByValue (vals.zip ws)) 0 0 x (0, 0) hws
      (by simp [lorenzMap]) hx0

/-- Witness for C10: the Gini part at a sample with a negative weight, the
decile-share and Lorenz parts at a sample with one zero weight. -/
theorem C10_nonpositive_weight_exclusion_witness :
    (∀ w ∈ [(2 : ℚ), 0], 0 ≤ w)
    ∧ filterPosW (([5, 7] : List ℚ).zip [2, 0]) ≠ []
    ∧ weighted_gini (filterPosW [(1, 1), (2, -1)]) = weighted_gini [(1, 1), (2, -1)]
    ∧ compute_decile_shares ((filterPosW (([5, 7] : List ℚ).zip [2, 0])).unzip).1
        ((filterPosW (([5, 7] : List ℚ).zip [2, 0])).unzip).2 2
      = compute_decile_shares [5, 7] [2, 0] 2
    ∧ lorenz_curve ((filterPosW (([5, 7] : List ℚ).zip [2, 0])).unzip).1
        ((filterPosW (([5, 7] : List ℚ).zip [2, 0])).unzip).2 3
      = lorenz_curve [5, 7] [2, 0] 3
    ∧ compute_decile_shares [5, 7] [2, 0] 2 = some [0, 1] :=
  ⟨by norm_num,
    by norm_num [filterPosW],
    (C10_nonpositive_weight_exclusion [(1, 1), (2, -1)] [5, 7] [2, 0] 2 3 (by norm_num)
      (by norm_num [filterPosW])).1,
    (C10_nonpositive_weight_exclusion [(1, 1), (2, -1)] [5, 7] [2, 0] 2 3 (by norm_num)
      (by norm_num [filterPosW])).2.1,
    (C10_nonpositive_weight_exclusion [(1, 1), (2, -1)] [5, 7] [2, 0] 2 3 (by norm_num)
      (by norm_num [filterPosW])).2.2,
    by norm_num [compute_decile_shares, sortByValue, insertByValue, rawShares, maskSum, wTotal,
      List.range_succ] <;> simp⟩

end PEAI
